import Mathlib

/-!
Verification development for the `HTML.mjs` declarative DOM helper.

The JavaScript source (`src/HTML.mjs`) is shallowly embedded below:
JS strings become `List Char` (the inputs in scope are ASCII, so the
UTF-16 code-unit view of `styleString[i]` coincides with `Char` lists),
JS objects with string keys become insertion-ordered association lists
(`for...in` enumerates non-numeric keys in insertion order; every key in
scope is non-numeric), and DOM mutation becomes explicit state passing
over a store of element records.
-/

namespace HTMLMjs

/-! ## JavaScript string trimming

`String.prototype.trim` removes leading and trailing whitespace.  The
characters that occur in this development are ASCII, so the ASCII
whitespace class suffices. -/

def isWs (c : Char) : Bool :=
  c = ' ' || c = '\t' || c = '\n' || c = '\r' || c = '\x0c' || c = '\x0b'

/-- JS `trim`: drop leading whitespace, then trailing whitespace. -/
def jsTrim (l : List Char) : List Char :=
  ((l.dropWhile isWs).reverse.dropWhile isWs).reverse

/-- `noLeadWs l` states that `l` has no leading whitespace to drop. -/
def noLeadWs (l : List Char) : Prop := l.dropWhile isWs = l


/-! ## JS object update

`obj[k] = v` on a JS object updates an existing key in place (keeping its
position in enumeration order) and appends a missing key at the end. -/

def setKey {κ ν : Type} [DecidableEq κ] : List (κ × ν) → κ → ν → List (κ × ν)
  | [], k, v => [(k, v)]
  | (k', v') :: rest, k, v =>
    if k' = k then (k, v) :: rest else (k', v') :: setKey rest k v

/-- First-match association lookup (JS property read; keys are unique). -/
def getKey {κ ν : Type} [DecidableEq κ] : List (κ × ν) → κ → Option ν
  | [], _ => none
  | (k', v') :: rest, k => if k' = k then some v' else getKey rest k

/-- Keys of an association list, in enumeration order. -/
def keysOf {κ ν : Type} (m : List (κ × ν)) : List κ := m.map Prod.fst

/-- Key uniqueness invariant of JS objects. -/
def NodupKeys {κ ν : Type} (m : List (κ × ν)) : Prop := (keysOf m).Nodup

/-- `overlay m n` writes every entry of `n` into `m`, left to right:
the JS loop `for (k in n) m[k] = n[k]`. -/
def overlay {κ ν : Type} [DecidableEq κ] (m n : List (κ × ν)) : List (κ × ν) :=
  n.foldl (fun m p => setKey m p.1 p.2) m


/-! ## The inline style parser: `HTML.StyleRuleToObject` (src/HTML.mjs 322-367)

The source scans the style string left to right with a quote flag, a
pending declaration buffer and a pending key:

* `"` toggles the quote flag (and is kept in the buffer);
* `:` while no key is pending moves the trimmed buffer into the key;
* `;` outside quotes commits `key -> trim(buffer)` when a key is pending
  (discarding the buffer otherwise) and resets both;
* any other character is appended to the buffer.

After the scan a pending key is committed the same way.  The source's
early return for the empty string coincides with running the scan on no
characters, so no separate case is needed. -/

structure ParseState where
  inQuote : Bool
  decl : List Char
  key : List Char
  out : List (List Char × List Char)
  deriving Repr, DecidableEq

/-- Dispatch on the current character after the quote toggle. -/
def parseStepCore (st : ParseState) (c : Char) : ParseState :=
  if c = ':' ∧ st.key = [] then
    { st with key := jsTrim st.decl, decl := [] }
  else if c = ';' ∧ st.inQuote = false then
    { st with
      out := if st.key ≠ [] then setKey st.out st.key (jsTrim st.decl) else st.out,
      key := [], decl := [] }
  else
    { st with decl := st.decl ++ [c] }

def parseStep (st0 : ParseState) (c : Char) : ParseState :=
  parseStepCore (if c = '"' then { st0 with inQuote := !st0.inQuote } else st0) c

def parseFinish (st : ParseState) : List (List Char × List Char) :=
  if st.key ≠ [] then setKey st.out st.key (jsTrim st.decl) else st.out

def parseChars (cs : List Char) : List (List Char × List Char) :=
  parseFinish (cs.foldl parseStep ⟨false, [], [], []⟩)

/-- `HTML.StyleRuleToObject`, at the JS string boundary. -/
def StyleRuleToObject (styleString : String) : List (String × String) :=
  (parseChars styleString.data).map (fun p => (⟨p.1⟩, ⟨p.2⟩))

/-! ## The serializers

`HTML.ObjectToStyleRule` (src/HTML.mjs 374-385) renders each entry as
`"name: value;"` and joins with a single space (`Array.join(" ")`).
Its guard returning a non-object argument unchanged (via
`Objects.isObject`, from the absent `Objects.mjs`) is a passthrough for
values that are already strings; the embedding covers the object case,
the only one the claims reach.

`HTML.SetStyle` (src/HTML.mjs 32-50) builds its own entry strings
`"name: value"` (no trailing semicolon) and joins with `";"`. -/

/-- JS `Array.prototype.join(sep)`. -/
def joinStrs (sep : List Char) : List (List Char) → List Char
  | [] => []
  | [x] => x
  | x :: y :: t => x ++ sep ++ joinStrs sep (y :: t)

/-- One `ObjectToStyleRule` entry: the template `"name: value;"`. -/
def entryObjChars (p : List Char × List Char) : List Char :=
  p.1 ++ ':' :: ' ' :: (p.2 ++ [';'])

/-- One `SetStyle` entry: the template `"name: value"`. -/
def entrySetChars (p : List Char × List Char) : List Char :=
  p.1 ++ ':' :: ' ' :: p.2

def objectToStyleRuleChars (m : List (List Char × List Char)) : List Char :=
  joinStrs [' '] (m.map entryObjChars)

/-- `HTML.ObjectToStyleRule`, at the JS string boundary. -/
def ObjectToStyleRule (styleObj : List (String × String)) : String :=
  ⟨objectToStyleRuleChars (styleObj.map (fun p => (p.1.data, p.2.data)))⟩

/-! ## Well-formed style maps

A committed parse entry always has a nonempty, trimmed key with no `:`,
`;` or `"` character, and a trimmed value; when the scanned string has no
`"` at all the value also contains no `;` or `"`.  Maps of such entries
are exactly the ones both serializers render in a re-parseable way. -/

def cleanKey (k : List Char) : Prop := ∀ c ∈ k, c ≠ ':' ∧ c ≠ ';' ∧ c ≠ '"'

def cleanVal (v : List Char) : Prop := ∀ c ∈ v, c ≠ ';' ∧ c ≠ '"'

def WFentry (p : List Char × List Char) : Prop :=
  p.1 ≠ [] ∧ jsTrim p.1 = p.1 ∧ cleanKey p.1 ∧ jsTrim p.2 = p.2 ∧ cleanVal p.2

def WFmap (m : List (List Char × List Char)) : Prop :=
  (∀ p ∈ m, WFentry p) ∧ NodupKeys m

def quoteFree (cs : List Char) : Prop := ∀ c ∈ cs, c ≠ '"'

instance (k : List Char) : Decidable (cleanKey k) := by
  unfold cleanKey
  infer_instance

instance (v : List Char) : Decidable (cleanVal v) := by
  unfold cleanVal
  infer_instance

instance (p : List Char × List Char) : Decidable (WFentry p) := by
  unfold WFentry
  infer_instance

instance (cs : List Char) : Decidable (quoteFree cs) := by
  unfold quoteFree
  infer_instance

instance {κ ν : Type} [DecidableEq κ] (m : List (κ × ν)) :
    Decidable (NodupKeys m) := by
  unfold NodupKeys
  infer_instance

/-- Scan invariant maintained over quote-free input. -/
structure InvA (st : ParseState) : Prop where
  quote : st.inQuote = false
  key_trim : jsTrim st.key = st.key
  key_clean : cleanKey st.key
  decl_clean : cleanVal st.decl
  decl_nc : st.key = [] → ∀ c ∈ st.decl, c ≠ ':'
  out_wf : WFmap st.out

/-- Scan invariant maintained over arbitrary input: every committed key
is trimmed and nonempty. -/
structure InvK (st : ParseState) : Prop where
  key_trim : jsTrim st.key = st.key
  out_tr : ∀ p ∈ st.out, jsTrim p.1 = p.1 ∧ p.1 ≠ []

/-! ## JavaScript values

A `JVal` is a plain JS value as used by the spec trees: `null`, a string,
a plain object (insertion-ordered fields), an array, a reference to an
already-constructed `HTMLElement`, or a function (opaque, identified by a
tag; handler bodies are host values the embedded code only stores or
invokes). -/

inductive JVal where
  | null
  | str (s : String)
  | obj (fields : List (String × JVal))
  | arr (elems : List JVal)
  | elem (id : Nat)
  | func (tag : Nat)
  deriving Repr

/-- JS `v == null` test restricted to values (undefined is out of scope). -/
def JVal.isNull : JVal → Bool
  | .null => true
  | _ => false

/-! JS template-literal stringification (the source's backtick strings
and DOM attribute/text coercions): strings pass through, plain objects
give "[object Object]", arrays join their items with "," rendering null
items empty, element handles give their host tag string (modeled with a
fixed representative), functions give their source text (modeled with a
fixed representative; no claim stringifies a function). -/
mutual
def jstr : JVal → String
  | .null => "null"
  | .str s => s
  | .obj _ => "[object Object]"
  | .arr xs => jstrList xs
  | .elem _ => "[object HTMLElement]"
  | .func _ => "function"

def jstrList : List JVal → String
  | [] => ""
  | [x] => jstrItem x
  | x :: y :: t => jstrItem x ++ "," ++ jstrList (y :: t)

def jstrItem : JVal → String
  | .null => ""
  | .str s => s
  | .obj _ => "[object Object]"
  | .arr xs => jstrList xs
  | .elem _ => "[object HTMLElement]"
  | .func _ => "function"
end

/-! ## Template substitution (`subst`, src/HTML.mjs 84-102)

Strings found in `subs` are replaced by the mapped value (not substituted
again); `HTMLElement`s are returned as-is; other objects (including
arrays) get their fields substituted recursively; any other value is
returned unchanged (`typeof null` is "object" but `for...in` over `null`
iterates nothing, so `null` passes through).  The source assigns each
substituted field back into the same object inside `try/catch`; the plain
data values in scope have no read-only fields, so assignment always
succeeds and the embedding is a pure map (aliasing between spec fields is
not modeled). -/

mutual
def subst (subs : List (String × JVal)) : JVal → JVal
  | .str s =>
    match getKey subs s with
    | some v => v
    | none => .str s
  | .elem i => .elem i
  | .obj fields => .obj (substFields subs fields)
  | .arr xs => .arr (substList subs xs)
  | .null => .null
  | .func n => .func n

def substFields (subs : List (String × JVal)) :
    List (String × JVal) → List (String × JVal)
  | [] => []
  | (k, v) :: t => (k, subst subs v) :: substFields subs t

def substList (subs : List (String × JVal)) : List JVal → List JVal
  | [] => []
  | v :: t => subst subs v :: substList subs t
end

/-! ## The DOM store

Host DOM state is a store of element records addressed by `Nat` handles;
an `HTMLElement` value is such a handle.  `Node.append` is modeled as
appending to the child list (the abstract host interface of the spec),
`setAttribute` replaces an existing attribute in place or appends a new
one, `addEventListener` is additive, and property assignment updates or
appends.  `inlineModifier` invocations are recorded in a call log. -/

inductive DomNode where
  | elem (id : Nat)
  | text (s : String)
  deriving Repr, DecidableEq

structure ElemData where
  tag : String
  attrs : List (String × String)
  children : List DomNode
  listeners : List (String × JVal)
  props : List (String × JVal)
  deriving Repr

instance : Inhabited ElemData := ⟨⟨"div", [], [], [], []⟩⟩

structure Store where
  elems : List ElemData
  calls : List (Nat × Nat)
  deriving Repr

/-- `document.createElement(tag)`: a fresh handle. -/
def allocElem (st : Store) (tag : String) : Nat × Store :=
  (st.elems.length, { st with elems := st.elems ++ [⟨tag, [], [], [], []⟩] })

def updateElem (st : Store) (id : Nat) (f : ElemData → ElemData) : Store :=
  { st with elems := st.elems.set id (f (st.elems.getD id default)) }

def setAttr (st : Store) (id : Nat) (name val : String) : Store :=
  updateElem st id (fun e => { e with attrs := setKey e.attrs name val })

def getAttr (st : Store) (id : Nat) (name : String) : Option String :=
  getKey (st.elems.getD id default).attrs name

def appendChild (st : Store) (id : Nat) (n : DomNode) : Store :=
  updateElem st id (fun e => { e with children := e.children ++ [n] })

def addListener (st : Store) (id : Nat) (name : String) (h : JVal) : Store :=
  updateElem st id (fun e => { e with listeners := e.listeners ++ [(name, h)] })

def setProp (st : Store) (id : Nat) (name : String) (v : JVal) : Store :=
  updateElem st id (fun e => { e with props := setKey e.props name v })

def recordCall (st : Store) (n : Nat) (id : Nat) : Store :=
  { st with calls := st.calls ++ [(n, id)] }

/-! ## `HTML.SetStyle` (src/HTML.mjs 32-50)

Parse the element's current `style` attribute (`Objects.ValueWithDefault`
defaults a missing attribute to `""`), overwrite/insert each property of
the argument object, then store the entries rendered as `"name: value"`
and joined with `";"` — the source builds this string itself rather than
calling `ObjectToStyleRule`.  The argument's values are arbitrary JS
values stringified by the template literal at render time. -/

def SetStyleCore (existingStyle : String) (style : List (String × JVal)) : String :=
  let styleObject : List (List Char × JVal) :=
    (parseChars existingStyle.data).map (fun p => (p.1, JVal.str ⟨p.2⟩))
  let merged := style.foldl (fun m p => setKey m p.1.data p.2) styleObject
  ⟨joinStrs [';'] (merged.map (fun p => p.1 ++ ':' :: ' ' :: (jstr p.2).data))⟩

def SetStyle (st : Store) (id : Nat) (style : List (String × JVal)) : Store :=
  setAttr st id "style" (SetStyleCore ((getAttr st id "style").getD "") style)

/-- The merged style map the spec describes: the parse of the existing
style string overlaid with the new entries (values stringified as the
entry loop prints them). -/
def mergedStyleMap (existingStyle : String) (style : List (String × JVal)) :
    List (List Char × List Char) :=
  overlay (parseChars existingStyle.data)
    (style.map (fun p => (p.1.data, (jstr p.2).data)))

/-- The output format `SetStyle` actually stores: entries `"name: value"`
joined with `";"` (no trailing semicolon, no space after the join). -/
def setStyleFormat (m : List (List Char × List Char)) : String :=
  ⟨joinStrs [';'] (m.map entrySetChars)⟩

/-! ## `HTML.GetZIndexRange` (src/HTML.mjs 392-423)

The source iterates every descendant, computing
`parseFloat(window.getComputedStyle(el).zIndex)` — host data.  The
embedding takes the per-descendant parse results as input: `some z` for a
numeric computed z-index, `none` where `parseFloat` yields `NaN` (such as
`auto`).  Computed CSS z-index values are integers, so `Int` models the
numeric values exactly. -/

/-! ## `HTML.#ObjectToElement` (src/HTML.mjs 77-201)

The private recursive materializer.  JS dynamic operations appearing in
it are modeled as follows.

* `for (const key in v)`: plain objects enumerate their fields in
  insertion order; arrays and strings enumerate their indices as string
  keys; elements and functions have no own enumerable properties; `null`
  enumerates nothing.
* `"style" in v` / `Object.keys(v)`: throw (`none`) on `null` and, for
  `in`, on primitive strings.  `"style" in element` is `true` — every
  `HTMLElement` exposes `style` (and `attributes`) through its prototype.
* `delete v[k]` removes the field from a plain object and is a silent
  no-op elsewhere (the file runs in strict mode but the deleted
  properties in scope are configurable-or-absent).

Recursion depth is bounded by a fuel parameter; `none` is returned on
fuel exhaustion (the source diverges on self-referential substitutions)
and on host exceptions.  The source's defaulting of a `null`
substitution dictionary to `\x7b\x7d` is subsumed by `subs` being a
list. -/

def forInFields : JVal → List (String × JVal)
  | .obj fs => fs
  | .arr xs => xs.enum.map (fun p => (toString p.1, p.2))
  | .str s => s.data.enum.map (fun p => (toString p.1, JVal.str ⟨[p.2]⟩))
  | _ => []

/-- The JS `k in v` relation, for the keys the source queries. -/
def hasKeyJ : JVal → String → Option Bool
  | .obj fs, k => some (decide (k ∈ keysOf fs))
  | .arr xs, k => some ((keysOf (forInFields (.arr xs))).contains k)
  | .elem _, _ => some true
  | .func _, _ => some false
  | .null, _ => none
  | .str _, _ => none

def eraseKeyJ : JVal → String → JVal
  | .obj fs, k => .obj (fs.filter (fun p => p.1 ≠ k))
  | v, _ => v

/-- `Object.keys(v).length`; `none` models the TypeError on `null`. -/
def keysLenJ : JVal → Option Nat
  | .null => none
  | v => some (forInFields v).length

/-- One iteration of the materializer's trailing key loop
(src/HTML.mjs 163-198), with `recm` the recursive materializer call. -/
def processKey (recm : JVal → List (String × JVal) → Option Nat → Store → Option (Nat × Store))
    (subs : List (String × JVal)) (pid : Nat) (kv : String × JVal) (s : Store) :
    Option Store :=
  if kv.1 = "style" ∨ kv.1 = "attributes" then some s
  else
    let value := subst subs kv.2
    if kv.1 = "children" then
      match value with
      | JVal.arr xs =>
        xs.foldl (fun acc x =>
          acc.bind (fun s => (recm x subs (some pid) s).map Prod.snd)) (some s)
      | JVal.null => none
      | JVal.str cs => if cs = "" then some s else none
      | _ => some s
    else if kv.1 = "properties" then
      some ((forInFields value).foldl (fun s p => setProp s pid p.1 p.2) s)
    else if kv.1 = "events" then
      some ((forInFields value).foldl (fun s p => addListener s pid p.1 p.2) s)
    else if kv.1 = "inlineModifier" then
      match value with
      | JVal.func n => some (recordCall s n pid)
      | _ => none
    else if kv.1 = "text" then
      some (appendChild s pid (DomNode.text (jstr value)))
    else
      let alloc := allocElem s kv.1
      (recm value subs (some alloc.1) alloc.2).map
        (fun r => appendChild r.2 pid (DomNode.elem r.1))

def ObjectToElement :
    Nat → JVal → List (String × JVal) → Option Nat → Store → Option (Nat × Store)
  | 0, _, _, _, _ => none
  | Nat.succ fuel, obj, subs, target, st0 =>
    let pst := match target with
      | some i => (i, st0)
      | none => allocElem st0 "div"
    let pid := pst.1
    let st1 := pst.2
    match obj with
    | JVal.elem i => some (pid, appendChild st1 pid (DomNode.elem i))
    | JVal.null => some (pid, st1)
    | JVal.str _ => none
    | JVal.func _ => some (pid, st1)
    | JVal.arr xs =>
      (xs.foldl (fun acc x =>
          acc.bind (fun s => (ObjectToElement fuel x subs (some pid) s).map Prod.snd))
        (some st1)).map (fun s => (pid, s))
    | JVal.obj fields =>
      let attributes := match getKey fields "attributes" with
        | some v => subst subs v
        | none => JVal.obj []
      let style := match getKey fields "style" with
        | some v => subst subs v
        | none => JVal.obj []
      match hasKeyJ attributes "style" with
      | none => none
      | some hasSt =>
        -- src/HTML.mjs 144-151: when attributes carry a style entry the
        -- source builds a merged inlineStyle object that is never read
        -- again (a dead local; a pure embedding has no binding for it)
        -- and deletes the key "attributes" — not "style" — from
        -- attributes.
        let attributes := if hasSt then eraseKeyJ attributes "attributes" else attributes
        let st2 := (forInFields attributes).foldl
          (fun s p => setAttr s pid p.1 (jstr p.2)) st1
        match keysLenJ style with
        | none => none
        | some nk =>
          let st3 := if 0 < nk then SetStyle st2 pid (forInFields style) else st2
          (fields.foldl (fun acc kv =>
              acc.bind (processKey (ObjectToElement fuel) subs pid kv))
            (some st3)).map (fun s => (pid, s))

def GetZIndexRange (zs : List (Option Int)) : Int × Int :=
  let scan := zs.foldl
    (fun (p : Int × Int) z =>
      match z with
      | none => p
      | some v => (if v < p.1 then v else p.1, if p.2 < v then v else p.2))
    (32000, -32000)
  (if scan.1 = 32000 then 0 else scan.1, if scan.2 = -32000 then 0 else scan.2)


/-! ## Lemmas about trimming and association lists -/

theorem dropWhile_eq_drop {p : Char → Bool} :
    ∀ l : List Char, ∃ k, l.dropWhile p = l.drop k := by
  intro l
  induction l with
  | nil => exact ⟨0, rfl⟩
  | cons a t ih =>
    by_cases h : p a
    · obtain ⟨k, hk⟩ := ih
      exact ⟨k + 1, by simp [List.dropWhile_cons, h, hk]⟩
    · exact ⟨0, by simp [List.dropWhile_cons, h]⟩


theorem noLeadWs_dropWhile (l : List Char) : noLeadWs (l.dropWhile isWs) :=
  List.dropWhile_idempotent isWs l

theorem noLeadWs_head {c : Char} {t : List Char} (h : noLeadWs (c :: t)) :
    isWs c = false := by
  by_cases hc : isWs c
  · exfalso
    have hlen : ((c :: t).dropWhile isWs).length ≤ t.length := by
      simp only [List.dropWhile_cons, hc, if_true]
      exact (List.dropWhile_sublist isWs).length_le
    rw [h] at hlen
    simp at hlen
  · simpa using hc

theorem noLeadWs_take {l : List Char} (h : noLeadWs l) (k : Nat) :
    noLeadWs (l.take k) := by
  cases l with
  | nil => simp [noLeadWs]
  | cons a t =>
    cases k with
    | zero => simp [noLeadWs]
    | succ k =>
      have ha : isWs a = false := noLeadWs_head h
      simp [noLeadWs, List.dropWhile_cons, ha]

theorem noLeadWs_reverse_dropWhile {l : List Char} (h : noLeadWs l) :
    noLeadWs ((l.reverse.dropWhile isWs).reverse) := by
  obtain ⟨k, hk⟩ := dropWhile_eq_drop (p := isWs) l.reverse
  rw [hk, ← List.rdrop_eq_reverse_drop_reverse, List.rdrop]
  exact noLeadWs_take h _

theorem jsTrim_noLeadWs (l : List Char) : noLeadWs (jsTrim l) :=
  noLeadWs_reverse_dropWhile (noLeadWs_dropWhile l)

theorem jsTrim_idem (l : List Char) : jsTrim (jsTrim l) = jsTrim l := by
  have h1 : (jsTrim l).dropWhile isWs = jsTrim l := jsTrim_noLeadWs l
  show (((jsTrim l).dropWhile isWs).reverse.dropWhile isWs).reverse = jsTrim l
  rw [h1]
  unfold jsTrim
  rw [List.reverse_reverse, List.dropWhile_idempotent]

theorem jsTrim_ws_append {d : List Char} (hd : ∀ c ∈ d, isWs c) (k : List Char) :
    jsTrim (d ++ k) = jsTrim k := by
  unfold jsTrim
  congr 2
  induction d with
  | nil => rfl
  | cons a t ih =>
    have ha : isWs a := hd a (List.mem_cons_self a t)
    simp only [List.cons_append, List.dropWhile_cons, ha, if_true]
    exact ih (fun c hc => hd c (List.mem_cons_of_mem a hc))

theorem mem_jsTrim {c : Char} {l : List Char} (h : c ∈ jsTrim l) : c ∈ l := by
  unfold jsTrim at h
  rw [List.mem_reverse] at h
  have h2 := List.dropWhile_subset isWs h
  rw [List.mem_reverse] at h2
  exact List.dropWhile_subset isWs h2

section AssocLemmas

variable {κ ν : Type} [DecidableEq κ]

theorem mem_setKey {m : List (κ × ν)} {k : κ} {v : ν} {p : κ × ν}
    (h : p ∈ setKey m k v) : p = (k, v) ∨ p ∈ m := by
  induction m with
  | nil => simpa [setKey] using h
  | cons q t ih =>
    rcases q with ⟨k', v'⟩
    by_cases hq : k' = k
    · rw [setKey, if_pos hq] at h
      rcases List.mem_cons.mp h with h | h
      · exact Or.inl h
      · exact Or.inr (List.mem_cons_of_mem _ h)
    · rw [setKey, if_neg hq] at h
      rcases List.mem_cons.mp h with h | h
      · exact Or.inr (by simp [h])
      · rcases ih h with h | h
        · exact Or.inl h
        · exact Or.inr (List.mem_cons_of_mem _ h)

theorem keysOf_setKey (m : List (κ × ν)) (k : κ) (v : ν) :
    keysOf (setKey m k v)
      = if k ∈ keysOf m then keysOf m else keysOf m ++ [k] := by
  induction m with
  | nil => simp [setKey, keysOf]
  | cons q t ih =>
    rcases q with ⟨k', v'⟩
    by_cases hq : k' = k
    · subst hq
      simp [setKey, keysOf]
    · have hne : k ≠ k' := fun h => hq h.symm
      simp only [setKey, hq, if_false, keysOf, List.map_cons] at ih ⊢
      rw [ih]
      by_cases hk : k ∈ List.map Prod.fst t
      · simp [hk, hne]
      · simp [hk, hne]

theorem NodupKeys_setKey {m : List (κ × ν)} (h : NodupKeys m) (k : κ) (v : ν) :
    NodupKeys (setKey m k v) := by
  unfold NodupKeys at h ⊢
  rw [keysOf_setKey]
  by_cases hk : k ∈ keysOf m
  · simpa [hk]
  · rw [if_neg hk]
    refine List.Nodup.append h (List.nodup_singleton k) ?_
    intro a ha hb
    simp at hb
    subst hb
    exact hk ha

theorem setKey_eq_append {m : List (κ × ν)} {k : κ} (hk : k ∉ keysOf m) (v : ν) :
    setKey m k v = m ++ [(k, v)] := by
  induction m with
  | nil => simp [setKey]
  | cons q t ih =>
    rcases q with ⟨k', v'⟩
    have h1 : k' ≠ k := by
      intro h
      exact hk (by simp [keysOf, h])
    have h2 : k ∉ keysOf t := fun h => hk (by simp [keysOf] at h ⊢; exact Or.inr h)
    simp [setKey, h1, ih h2]

theorem getKey_setKey_self (m : List (κ × ν)) (k : κ) (v : ν) :
    getKey (setKey m k v) k = some v := by
  induction m with
  | nil => simp [setKey, getKey]
  | cons q t ih =>
    rcases q with ⟨k', v'⟩
    by_cases hq : k' = k
    · simp [setKey, hq, getKey]
    · simp [setKey, hq, getKey, ih]

theorem getKey_setKey_ne (m : List (κ × ν)) {k k' : κ} (h : k' ≠ k) (v : ν) :
    getKey (setKey m k v) k' = getKey m k' := by
  have h' : ¬k = k' := fun hh => h hh.symm
  induction m with
  | nil => simp [setKey, getKey, h']
  | cons q t ih =>
    rcases q with ⟨a, b⟩
    by_cases hq : a = k
    · subst hq
      simp [setKey, getKey, h']
    · simp [setKey, hq, getKey, ih]

theorem getKey_eq_some_of_mem {m : List (κ × ν)} {k : κ} {v : ν}
    (hm : NodupKeys m) (h : (k, v) ∈ m) : getKey m k = some v := by
  induction m with
  | nil => simp at h
  | cons q t ih =>
    rcases q with ⟨a, b⟩
    have hm' : (a :: keysOf t).Nodup := hm
    have hnd := List.nodup_cons.mp hm'
    rcases List.mem_cons.mp h with h | h
    · cases h
      simp [getKey]
    · have ha : a ≠ k := by
        intro hh
        subst hh
        exact hnd.1 (by simpa [keysOf] using List.mem_map_of_mem Prod.fst h)
      simp [getKey, ha, ih hnd.2 h]


theorem overlay_cons (m : List (κ × ν)) (q : κ × ν) (t : List (κ × ν)) :
    overlay m (q :: t) = overlay (setKey m q.1 q.2) t := rfl

theorem mem_overlay {n m : List (κ × ν)} {p : κ × ν}
    (h : p ∈ overlay m n) : p ∈ m ∨ p ∈ n := by
  induction n generalizing m with
  | nil => exact Or.inl h
  | cons q t ih =>
    rw [overlay_cons] at h
    rcases ih h with h | h
    · rcases mem_setKey h with h | h
      · exact Or.inr (by simp [h])
      · exact Or.inl h
    · exact Or.inr (List.mem_cons_of_mem _ h)

theorem NodupKeys_overlay {m : List (κ × ν)} (hm : NodupKeys m) (n : List (κ × ν)) :
    NodupKeys (overlay m n) := by
  induction n generalizing m with
  | nil => exact hm
  | cons q t ih => exact ih (NodupKeys_setKey hm q.1 q.2)

theorem getKey_overlay_of_not_mem {n : List (κ × ν)} {k : κ}
    (h : k ∉ keysOf n) (m : List (κ × ν)) :
    getKey (overlay m n) k = getKey m k := by
  induction n generalizing m with
  | nil => rfl
  | cons q t ih =>
    have h1 : k ≠ q.1 := by
      intro hh
      exact h (by simp [keysOf, hh])
    have h2 : k ∉ keysOf t := fun hh => h (by simp [keysOf] at hh ⊢; exact Or.inr hh)
    rw [overlay_cons, ih h2, getKey_setKey_ne _ h1]

theorem getKey_overlay_of_mem {n : List (κ × ν)} {k : κ} {v : ν}
    (hn : NodupKeys n) (h : (k, v) ∈ n) (m : List (κ × ν)) :
    getKey (overlay m n) k = some v := by
  induction n generalizing m with
  | nil => simp at h
  | cons q t ih =>
    have hn' : (q.1 :: keysOf t).Nodup := hn
    have hnd := List.nodup_cons.mp hn'
    rcases List.mem_cons.mp h with h | h
    · cases h
      have hk : k ∉ keysOf t := hnd.1
      rw [overlay_cons, getKey_overlay_of_not_mem hk, getKey_setKey_self]
    · exact ih hnd.2 h _

theorem overlay_nil_eq {n : List (κ × ν)} (hn : NodupKeys n) :
    ∀ m, (∀ k ∈ keysOf n, k ∉ keysOf m) → overlay m n = m ++ n := by
  induction n with
  | nil => intro m _; simp [overlay]
  | cons q t ih =>
    intro m hdis
    have hn' : (q.1 :: keysOf t).Nodup := hn
    have hnd := List.nodup_cons.mp hn'
    have hq : q.1 ∉ keysOf m := hdis q.1 (by simp [keysOf])
    have hdis' : ∀ k ∈ keysOf t, k ∉ keysOf (m ++ [q]) := by
      intro k hk
      have h1 : k ∉ keysOf m :=
        hdis k (by simp [keysOf] at hk ⊢; exact Or.inr hk)
      have h2 : k ≠ q.1 := by
        intro hh
        rw [hh] at hk
        exact hnd.1 hk
      intro hmem
      rw [keysOf, List.map_append] at hmem
      rcases List.mem_append.mp hmem with hm1 | hm2
      · exact h1 hm1
      · simp at hm2
        exact h2 hm2
    calc overlay m (q :: t) = overlay (setKey m q.1 q.2) t := rfl
      _ = overlay (m ++ [q]) t := by rw [setKey_eq_append hq]
      _ = (m ++ [q]) ++ t := ih hnd.2 _ hdis'
      _ = m ++ q :: t := by simp

end AssocLemmas

/-! ## Parser scan lemmas -/

theorem parseStep_colon_nokey (d : List Char) (m : List (List Char × List Char)) :
    parseStep ⟨false, d, [], m⟩ ':' = ⟨false, [], jsTrim d, m⟩ := rfl

theorem parseStep_semi_nokey (d : List Char) (m : List (List Char × List Char)) :
    parseStep ⟨false, d, [], m⟩ ';' = ⟨false, [], [], m⟩ := rfl

theorem parseStep_semi_key (d k : List Char) (m : List (List Char × List Char))
    (hk : k ≠ []) :
    parseStep ⟨false, d, k, m⟩ ';' = ⟨false, [], [], setKey m k (jsTrim d)⟩ := by
  have h1 : ¬((';' : Char) = ':' ∧ k = []) := fun h => absurd h.1 (by decide)
  show parseStepCore ⟨false, d, k, m⟩ ';' = _
  unfold parseStepCore
  rw [if_neg h1, if_pos ⟨rfl, rfl⟩]
  simp [hk]

theorem parseStep_push {c : Char} (hq : c ≠ '"') (hs : c ≠ ';')
    (d k : List Char) (m : List (List Char × List Char))
    (hc : ¬(c = ':' ∧ k = [])) :
    parseStep ⟨false, d, k, m⟩ c = ⟨false, d ++ [c], k, m⟩ := by
  unfold parseStep
  rw [if_neg hq]
  unfold parseStepCore
  rw [if_neg hc, if_neg (fun h => hs h.1)]

theorem foldl_push_nokey :
    ∀ (cs d : List Char) (m : List (List Char × List Char)), cleanKey cs →
      cs.foldl parseStep ⟨false, d, [], m⟩ = ⟨false, d ++ cs, [], m⟩ := by
  intro cs
  induction cs with
  | nil => intro d m _; simp
  | cons c t ih =>
    intro d m hcl
    obtain ⟨h1, h2, h3⟩ := hcl c (List.mem_cons_self c t)
    rw [List.foldl_cons, parseStep_push h3 h2 d [] m (fun h => h1 h.1),
        ih (d ++ [c]) m (fun c hc => hcl c (List.mem_cons_of_mem _ hc))]
    simp

theorem foldl_push_key :
    ∀ (cs d k : List Char) (m : List (List Char × List Char)), k ≠ [] → cleanVal cs →
      cs.foldl parseStep ⟨false, d, k, m⟩ = ⟨false, d ++ cs, k, m⟩ := by
  intro cs
  induction cs with
  | nil => intro d k m _ _; simp
  | cons c t ih =>
    intro d k m hk hcl
    obtain ⟨h1, h2⟩ := hcl c (List.mem_cons_self c t)
    rw [List.foldl_cons, parseStep_push h2 h1 d k m (fun h => hk h.2),
        ih (d ++ [c]) k m hk (fun c hc => hcl c (List.mem_cons_of_mem _ hc))]
    simp

/-! ## Parsing a serialized entry -/

theorem parse_entry_obj {d : List Char} (hd : ∀ c ∈ d, isWs c)
    {p : List Char × List Char} (hp : WFentry p) (m : List (List Char × List Char)) :
    (entryObjChars p).foldl parseStep ⟨false, d, [], m⟩
      = ⟨false, [], [], setKey m p.1 p.2⟩ := by
  obtain ⟨hk0, hkt, hkc, hvt, hvc⟩ := hp
  unfold entryObjChars
  rw [List.foldl_append, foldl_push_nokey p.1 d m hkc, List.foldl_cons,
      parseStep_colon_nokey, jsTrim_ws_append hd, hkt, List.foldl_cons,
      parseStep_push (by decide) (by decide) [] p.1 m (fun h => absurd h.1 (by decide)),
      List.foldl_append, foldl_push_key p.2 ([] ++ [' ']) p.1 m hk0 hvc]
  show [';'].foldl parseStep _ = _
  rw [List.foldl_cons, parseStep_semi_key _ p.1 m hk0]
  have : jsTrim (([] ++ [' ']) ++ p.2) = p.2 := by
    rw [List.nil_append, jsTrim_ws_append (by intro c hc; simp at hc; subst hc; decide), hvt]
  rw [this]
  rfl

theorem parse_entry_set {p : List Char × List Char} (hp : WFentry p)
    (m : List (List Char × List Char)) :
    (entrySetChars p).foldl parseStep ⟨false, [], [], m⟩
      = ⟨false, [' '] ++ p.2, p.1, m⟩ := by
  obtain ⟨hk0, hkt, hkc, hvt, hvc⟩ := hp
  unfold entrySetChars
  rw [List.foldl_append, foldl_push_nokey p.1 [] m hkc, List.foldl_cons]
  rw [show ([] : List Char) ++ p.1 = p.1 from List.nil_append p.1]
  rw [parseStep_colon_nokey, hkt, List.foldl_cons,
      parseStep_push (by decide) (by decide) [] p.1 m (fun h => absurd h.1 (by decide)),
      foldl_push_key p.2 ([] ++ [' ']) p.1 m hk0 hvc]
  simp

theorem ws_single : ∀ c ∈ [' '], isWs c := by
  intro c hc
  simp at hc
  subst hc
  decide

/-! ## Parsing a whole serialized map -/

theorem parse_join_obj :
    ∀ (L : List (List Char × List Char)) (d : List Char)
      (m : List (List Char × List Char)),
      (∀ c ∈ d, isWs c) → (∀ p ∈ L, WFentry p) →
      parseFinish ((joinStrs [' '] (L.map entryObjChars)).foldl parseStep
          ⟨false, d, [], m⟩)
        = overlay m L := by
  intro L
  induction L with
  | nil =>
    intro d m _ _
    simp [joinStrs, parseFinish, overlay]
  | cons e t ih =>
    intro d m hd hwf
    have he : WFentry e := hwf e (List.mem_cons_self e t)
    cases t with
    | nil =>
      show parseFinish ((entryObjChars e).foldl parseStep _) = _
      rw [parse_entry_obj hd he m]
      simp [parseFinish, overlay]
    | cons e2 t2 =>
      show parseFinish
          (((entryObjChars e ++ [' ']) ++ joinStrs [' '] ((e2 :: t2).map entryObjChars)).foldl
            parseStep ⟨false, d, [], m⟩) = _
      rw [List.foldl_append, List.foldl_append, parse_entry_obj hd he m]
      rw [show [' '].foldl parseStep ⟨false, [], [], setKey m e.1 e.2⟩
            = ⟨false, [' '], [], setKey m e.1 e.2⟩ from rfl]
      rw [ih [' '] _ ws_single (fun p hp => hwf p (List.mem_cons_of_mem _ hp))]
      exact (overlay_cons m e (e2 :: t2)).symm

theorem parse_join_set :
    ∀ (L : List (List Char × List Char)) (m : List (List Char × List Char)),
      (∀ p ∈ L, WFentry p) →
      parseFinish ((joinStrs [';'] (L.map entrySetChars)).foldl parseStep
          ⟨false, [], [], m⟩)
        = overlay m L := by
  intro L
  induction L with
  | nil =>
    intro m _
    simp [joinStrs, parseFinish, overlay]
  | cons e t ih =>
    intro m hwf
    have he : WFentry e := hwf e (List.mem_cons_self e t)
    obtain ⟨hk0, hkt, hkc, hvt, hvc⟩ := hwf e (List.mem_cons_self e t)
    cases t with
    | nil =>
      show parseFinish ((entrySetChars e).foldl parseStep _) = _
      rw [parse_entry_set he m]
      unfold parseFinish
      rw [if_pos (show (⟨false, [' '] ++ e.2, e.1, m⟩ : ParseState).key ≠ [] from hk0)]
      show setKey m e.1 (jsTrim ([' '] ++ e.2)) = _
      rw [jsTrim_ws_append ws_single, hvt]
      simp [overlay]
    | cons e2 t2 =>
      show parseFinish
          (((entrySetChars e ++ [';']) ++ joinStrs [';'] ((e2 :: t2).map entrySetChars)).foldl
            parseStep ⟨false, [], [], m⟩) = _
      rw [List.foldl_append, List.foldl_append, parse_entry_set he m]
      rw [show ([';'].foldl parseStep ⟨false, [' '] ++ e.2, e.1, m⟩)
            = parseStep ⟨false, [' '] ++ e.2, e.1, m⟩ ';' from rfl]
      rw [parseStep_semi_key _ _ _ hk0, jsTrim_ws_append ws_single, hvt]
      rw [ih _ (fun p hp => hwf p (List.mem_cons_of_mem _ hp))]
      exact (overlay_cons m e (e2 :: t2)).symm

theorem parseChars_objser {L : List (List Char × List Char)}
    (h : ∀ p ∈ L, WFentry p) :
    parseChars (objectToStyleRuleChars L) = overlay [] L := by
  unfold parseChars objectToStyleRuleChars
  exact parse_join_obj L [] [] (by simp) h

theorem overlay_nil {L : List (List Char × List Char)} (hnd : NodupKeys L) :
    overlay ([] : List (List Char × List Char)) L = L := by
  rw [overlay_nil_eq hnd [] (by simp [keysOf])]
  simp

theorem parseChars_objser_eq {L : List (List Char × List Char)} (hwf : WFmap L) :
    parseChars (objectToStyleRuleChars L) = L := by
  rw [parseChars_objser hwf.1, overlay_nil hwf.2]

theorem parseChars_setser {L : List (List Char × List Char)}
    (h : ∀ p ∈ L, WFentry p) :
    parseChars (joinStrs [';'] (L.map entrySetChars)) = overlay [] L := by
  unfold parseChars
  exact parse_join_set L [] h

theorem parseChars_setser_eq {L : List (List Char × List Char)} (hwf : WFmap L) :
    parseChars (joinStrs [';'] (L.map entrySetChars)) = L := by
  rw [parseChars_setser hwf.1, overlay_nil hwf.2]

/-! ## The scan invariants -/

theorem WFmap_setKey {m : List (List Char × List Char)} (hm : WFmap m)
    {k v : List Char} (he : WFentry (k, v)) : WFmap (setKey m k v) := by
  constructor
  · intro p hp
    rcases mem_setKey hp with h | h
    · rw [h]
      exact he
    · exact hm.1 p h
  · exact NodupKeys_setKey hm.2 k v

theorem InvA_step {st : ParseState} (h : InvA st) {c : Char} (hc : c ≠ '"') :
    InvA (parseStep st c) := by
  rw [parseStep, if_neg hc]
  unfold parseStepCore
  by_cases h1 : c = ':' ∧ st.key = []
  · rw [if_pos h1]
    refine ⟨h.quote, jsTrim_idem _, ?_, ?_, ?_, h.out_wf⟩
    · intro ch hch
      have hmem := mem_jsTrim hch
      obtain ⟨hv1, hv2⟩ := h.decl_clean ch hmem
      exact ⟨h.decl_nc h1.2 ch hmem, hv1, hv2⟩
    · intro ch hch
      simp at hch
    · intro _ ch hch
      simp at hch
  · rw [if_neg h1]
    by_cases h2 : c = ';' ∧ st.inQuote = false
    · rw [if_pos h2]
      refine ⟨h.quote, rfl, ?_, ?_, ?_, ?_⟩
      · intro ch hch
        simp at hch
      · intro ch hch
        simp at hch
      · intro _ ch hch
        simp at hch
      · by_cases h3 : st.key ≠ []
        · rw [if_pos h3]
          refine WFmap_setKey h.out_wf ⟨h3, h.key_trim, h.key_clean, jsTrim_idem _, ?_⟩
          intro ch hch
          exact h.decl_clean ch (mem_jsTrim hch)
        · rw [if_neg h3]
          exact h.out_wf
    · rw [if_neg h2]
      refine ⟨h.quote, h.key_trim, h.key_clean, ?_, ?_, h.out_wf⟩
      · intro ch hch
        rcases List.mem_append.mp hch with hm1 | hm2
        · exact h.decl_clean ch hm1
        · simp at hm2
          subst hm2
          exact ⟨fun hcc => h2 ⟨hcc, h.quote⟩, hc⟩
      · intro hk ch hch
        rcases List.mem_append.mp hch with hm1 | hm2
        · exact h.decl_nc hk ch hm1
        · simp at hm2
          subst hm2
          exact fun hcc => h1 ⟨hcc, hk⟩

theorem InvA_foldl :
    ∀ (cs : List Char) (st : ParseState), quoteFree cs → InvA st →
      InvA (cs.foldl parseStep st) := by
  intro cs
  induction cs with
  | nil => intro st _ h; exact h
  | cons c t ih =>
    intro st hq h
    rw [List.foldl_cons]
    exact ih _ (fun c hc => hq c (List.mem_cons_of_mem _ hc))
      (InvA_step h (hq c (List.mem_cons_self c t)))

theorem InvA_init : InvA ⟨false, [], [], []⟩ := by
  refine ⟨rfl, rfl, ?_, ?_, ?_, ?_, ?_⟩
  · intro ch hch; simp at hch
  · intro ch hch; simp at hch
  · intro _ ch hch; simp at hch
  · intro p hp; simp at hp
  · simp [NodupKeys, keysOf]

theorem WFmap_parseFinish {st : ParseState} (h : InvA st) :
    WFmap (parseFinish st) := by
  unfold parseFinish
  by_cases hk : st.key ≠ []
  · rw [if_pos hk]
    refine WFmap_setKey h.out_wf ⟨hk, h.key_trim, h.key_clean, jsTrim_idem _, ?_⟩
    intro ch hch
    exact h.decl_clean ch (mem_jsTrim hch)
  · rw [if_neg hk]
    exact h.out_wf

theorem parseChars_WF {cs : List Char} (hq : quoteFree cs) :
    WFmap (parseChars cs) :=
  WFmap_parseFinish (InvA_foldl cs _ hq InvA_init)

theorem InvK_core {st : ParseState} (h : InvK st) (c : Char) :
    InvK (parseStepCore st c) := by
  unfold parseStepCore
  by_cases h1 : c = ':' ∧ st.key = []
  · rw [if_pos h1]
    exact ⟨jsTrim_idem _, h.out_tr⟩
  · rw [if_neg h1]
    by_cases h2 : c = ';' ∧ st.inQuote = false
    · rw [if_pos h2]
      refine ⟨rfl, ?_⟩
      by_cases h3 : st.key ≠ []
      · rw [if_pos h3]
        intro p hp
        rcases mem_setKey hp with hp | hp
        · rw [hp]
          exact ⟨h.key_trim, h3⟩
        · exact h.out_tr p hp
      · rw [if_neg h3]
        exact h.out_tr
    · rw [if_neg h2]
      exact ⟨h.key_trim, h.out_tr⟩

theorem InvK_step {st : ParseState} (h : InvK st) (c : Char) :
    InvK (parseStep st c) := by
  unfold parseStep
  by_cases hq : c = '"'
  · rw [if_pos hq]
    exact @InvK_core { st with inQuote := !st.inQuote } ⟨h.key_trim, h.out_tr⟩ c
  · rw [if_neg hq]
    exact InvK_core h c

theorem InvK_foldl :
    ∀ (cs : List Char) (st : ParseState), InvK st → InvK (cs.foldl parseStep st) := by
  intro cs
  induction cs with
  | nil => intro st h; exact h
  | cons c t ih =>
    intro st h
    rw [List.foldl_cons]
    exact ih _ (InvK_step h c)

theorem parseChars_keys (cs : List Char) :
    ∀ p ∈ parseChars cs, jsTrim p.1 = p.1 ∧ p.1 ≠ [] := by
  have h0 : InvK (⟨false, [], [], []⟩ : ParseState) := by
    refine ⟨rfl, ?_⟩
    intro p hp
    simp at hp
  have h := InvK_foldl cs _ h0
  unfold parseChars parseFinish
  by_cases hk : (cs.foldl parseStep ⟨false, [], [], []⟩).key ≠ []
  · rw [if_pos hk]
    intro p hp
    rcases mem_setKey hp with hp | hp
    · rw [hp]
      exact ⟨h.key_trim, hk⟩
    · exact h.out_tr p hp
  · rw [if_neg hk]
    exact h.out_tr

/-! ## Bridges between value representations -/

theorem map_pair_id {α β : Type} {f : α × β → α × β} (h : ∀ a b, f (a, b) = (a, b)) :
    ∀ l : List (α × β), l.map f = l := by
  intro l
  induction l with
  | nil => rfl
  | cons q t ih =>
    rcases q with ⟨a, b⟩
    rw [List.map_cons, h a b, ih]

theorem setKey_map_val {κ ν μ : Type} [DecidableEq κ] (f : ν → μ) :
    ∀ (m : List (κ × ν)) (k : κ) (v : ν),
      (setKey m k v).map (fun p => (p.1, f p.2))
        = setKey (m.map (fun p => (p.1, f p.2))) k (f v) := by
  intro m k v
  induction m with
  | nil => rfl
  | cons q t ih =>
    rcases q with ⟨a, b⟩
    by_cases ha : a = k
    · simp [setKey, ha]
    · simp [setKey, ha, ih]

theorem overlay_map_val {κ ν μ : Type} [DecidableEq κ] (f : ν → μ) :
    ∀ (n m : List (κ × ν)),
      (overlay m n).map (fun p => (p.1, f p.2))
        = overlay (m.map (fun p => (p.1, f p.2))) (n.map (fun p => (p.1, f p.2))) := by
  intro n
  induction n with
  | nil => intro m; rfl
  | cons q t ih =>
    intro m
    rw [overlay_cons, ih, setKey_map_val]
    rfl

/-- The merge loop of `SetStyle` is `overlay` over the key-data view. -/
theorem setStyle_fold_eq_overlay (style : List (String × JVal))
    (m : List (List Char × JVal)) :
    style.foldl (fun m p => setKey m p.1.data p.2) m
      = overlay m (style.map (fun p => (p.1.data, p.2))) := by
  rw [overlay, List.foldl_map]

theorem SetStyleCore_eq (e : String) (style : List (String × JVal)) :
    SetStyleCore e style = setStyleFormat (mergedStyleMap e style) := by
  unfold SetStyleCore setStyleFormat mergedStyleMap
  apply congrArg String.mk
  apply congrArg (joinStrs [';'])
  rw [setStyle_fold_eq_overlay]
  have h1 : ∀ M : List (List Char × JVal),
      M.map (fun p => p.1 ++ ':' :: ' ' :: (jstr p.2).data)
        = (M.map (fun p => (p.1, (jstr p.2).data))).map entrySetChars := by
    intro M
    rw [List.map_map]
    rfl
  rw [h1, overlay_map_val (fun v => (jstr v).data)]
  have h2 : ((parseChars e.data).map (fun p => (p.1, JVal.str ⟨p.2⟩))).map
        (fun p => (p.1, (jstr p.2).data))
      = parseChars e.data := by
    rw [List.map_map]
    exact map_pair_id (fun a b => rfl) _
  have h3 : (style.map (fun p => (p.1.data, p.2))).map
        (fun p => (p.1, (jstr p.2).data))
      = style.map (fun p => (p.1.data, (jstr p.2).data)) := by
    rw [List.map_map]
    rfl
  rw [h2, h3]

theorem string_data_inj : Function.Injective String.data := by
  intro a b h
  cases a
  cases b
  exact congrArg String.mk h

theorem strPair_dataPair (M : List (String × String)) :
    (M.map (fun p => (p.1.data, p.2.data))).map
        (fun p => ((⟨p.1⟩ : String), (⟨p.2⟩ : String))) = M := by
  rw [List.map_map]
  exact map_pair_id (fun a b => rfl) _

theorem getKey_mapStr (m : List (List Char × List Char)) (k : String) :
    getKey (m.map (fun p => ((⟨p.1⟩ : String), (⟨p.2⟩ : String)))) k
      = (getKey m k.data).map (fun v => (⟨v⟩ : String)) := by
  induction m with
  | nil => rfl
  | cons q t ih =>
    rcases q with ⟨a, b⟩
    cases k with
    | mk kd =>
      by_cases ha : a = kd
      · subst ha
        simp [getKey]
      · have hne : (⟨a⟩ : String) ≠ ⟨kd⟩ := by
          intro hh
          exact ha (congrArg String.data hh)
        simp only [List.map_cons, getKey, if_neg hne, if_neg ha]
        exact ih

theorem mem_keys_data {n : List (String × String)} {k : String} :
    k.data ∈ keysOf (n.map (fun p => (p.1.data, p.2.data))) ↔ k ∈ keysOf n := by
  unfold keysOf
  rw [List.map_map]
  constructor
  · intro h
    obtain ⟨p, hp, he⟩ := List.mem_map.mp h
    have hpk : p.1 = k := string_data_inj he
    exact hpk ▸ List.mem_map_of_mem Prod.fst hp
  · intro h
    obtain ⟨p, hp, he⟩ := List.mem_map.mp h
    exact List.mem_map.mpr ⟨p, hp, by rw [show ((Prod.fst ∘ fun p => (p.1.data, p.2.data)) p) = p.1.data from rfl, he]⟩

theorem NodupKeys_dataPair {n : List (String × String)} (h : NodupKeys n) :
    NodupKeys (n.map (fun p => (p.1.data, p.2.data))) := by
  unfold NodupKeys keysOf at h ⊢
  rw [List.map_map]
  have : (Prod.fst ∘ fun (p : String × String) => (p.1.data, p.2.data))
      = String.data ∘ Prod.fst := rfl
  rw [this, ← List.map_map]
  exact h.map string_data_inj

/-! ## The z-index scan -/

theorem min_eq_if (a v : Int) : min a v = if v < a then v else a := by
  by_cases h : v < a
  · rw [if_pos h, min_eq_right (le_of_lt h)]
  · rw [if_neg h, min_eq_left (not_lt.mp h)]

theorem max_eq_if (b v : Int) : max b v = if b < v then v else b := by
  by_cases h : b < v
  · rw [if_pos h, max_eq_right (le_of_lt h)]
  · rw [if_neg h, max_eq_left (not_lt.mp h)]

theorem scan_pair_eq (zs : List (Option Int)) :
    ∀ a b : Int,
      zs.foldl
          (fun (p : Int × Int) z =>
            match z with
            | none => p
            | some v => (if v < p.1 then v else p.1, if p.2 < v then v else p.2))
          (a, b)
        = ((zs.filterMap id).foldl min a, (zs.filterMap id).foldl max b) := by
  induction zs with
  | nil => intro a b; rfl
  | cons z t ih =>
    intro a b
    cases z with
    | none => simpa using ih a b
    | some v =>
      rw [List.foldl_cons]
      show t.foldl _ (if v < a then v else a, if b < v then v else b) = _
      rw [← min_eq_if, ← max_eq_if, ih]
      simp

theorem foldl_min_min (l : List Int) : ∀ a x : Int,
    l.foldl min (min a x) = min a (l.foldl min x) := by
  induction l with
  | nil => intro a x; rfl
  | cons y t ih =>
    intro a x
    rw [List.foldl_cons, List.foldl_cons, min_assoc, ih]

theorem foldl_max_max (l : List Int) : ∀ a x : Int,
    l.foldl max (max a x) = max a (l.foldl max x) := by
  induction l with
  | nil => intro a x; rfl
  | cons y t ih =>
    intro a x
    rw [List.foldl_cons, List.foldl_cons, max_assoc, ih]

theorem foldl_min_eq {l : List Int} {m : Int} (h : l.min? = some m) (a : Int) :
    l.foldl min a = min a m := by
  cases l with
  | nil => simp at h
  | cons x t =>
    have hx : (x :: t).min? = some (t.foldl min x) := rfl
    rw [hx] at h
    have hm : t.foldl min x = m := by
      injection h
    rw [List.foldl_cons, foldl_min_min, hm]

theorem foldl_max_eq {l : List Int} {M : Int} (h : l.max? = some M) (b : Int) :
    l.foldl max b = max b M := by
  cases l with
  | nil => simp at h
  | cons x t =>
    have hx : (x :: t).max? = some (t.foldl max x) := rfl
    rw [hx] at h
    have hM : t.foldl max x = M := by
      injection h
    rw [List.foldl_cons, foldl_max_max, hM]

theorem GetZIndexRange_eq (zs : List (Option Int)) :
    GetZIndexRange zs
      = (if (zs.filterMap id).foldl min 32000 = 32000 then 0
           else (zs.filterMap id).foldl min 32000,
         if (zs.filterMap id).foldl max (-32000) = -32000 then 0
           else (zs.filterMap id).foldl max (-32000)) := by
  unfold GetZIndexRange
  rw [scan_pair_eq zs 32000 (-32000)]

/-! ## Materializer unfolding lemmas -/

theorem ObjectToElement_null (fuel : Nat) (subs : List (String × JVal))
    (t : Nat) (st : Store) :
    ObjectToElement (fuel + 1) JVal.null subs (some t) st = some (t, st) := rfl

theorem ObjectToElement_none_target (fuel : Nat) (obj : JVal)
    (subs : List (String × JVal)) (st : Store) :
    ObjectToElement (fuel + 1) obj subs none st
      = ObjectToElement (fuel + 1) obj subs (some st.elems.length)
          { st with elems := st.elems ++ [⟨"div", [], [], [], []⟩] } := rfl

theorem ObjectToElement_children (fuel : Nat) (subs : List (String × JVal))
    (pid : Nat) (st1 : Store) (l : List JVal) :
    ObjectToElement (fuel + 1) (JVal.obj [("children", JVal.arr l)]) subs (some pid) st1
      = ((substList subs l).foldl
          (fun acc x => acc.bind (fun s =>
            (ObjectToElement fuel x subs (some pid) s).map Prod.snd))
          (some st1)).map (fun s => (pid, s)) := rfl

theorem foldl_bind_none {α : Type} (g : α → Store → Option Store) :
    ∀ l : List α,
      l.foldl (fun acc x => acc.bind (fun s => g x s)) none = none := by
  intro l
  induction l with
  | nil => rfl
  | cons x t ih => simpa using ih

theorem foldl_children_filter (fuel : Nat) (subs : List (String × JVal)) (pid : Nat) :
    ∀ (l : List JVal) (acc : Option Store),
      (substList subs l).foldl
          (fun acc x => acc.bind (fun s =>
            (ObjectToElement (fuel + 1) x subs (some pid) s).map Prod.snd)) acc
        = (substList subs (l.filter (fun v => !v.isNull))).foldl
          (fun acc x => acc.bind (fun s =>
            (ObjectToElement (fuel + 1) x subs (some pid) s).map Prod.snd)) acc := by
  intro l
  induction l with
  | nil => intro acc; rfl
  | cons x t ih =>
    intro acc
    cases x with
    | null =>
      show (JVal.null :: substList subs t).foldl _ acc = (substList subs (t.filter _)).foldl _ acc
      rw [List.foldl_cons]
      cases acc with
      | none =>
        show (substList subs t).foldl _ none = _
        rw [foldl_bind_none, foldl_bind_none]
      | some s =>
        show (substList subs t).foldl _ (some s) = _
        exact ih (some s)
    | str s1 =>
      show (subst subs (JVal.str s1) :: substList subs t).foldl _ acc
        = (subst subs (JVal.str s1) :: substList subs (t.filter _)).foldl _ acc
      rw [List.foldl_cons, List.foldl_cons]
      exact ih _
    | obj fs =>
      show (subst subs (JVal.obj fs) :: substList subs t).foldl _ acc
        = (subst subs (JVal.obj fs) :: substList subs (t.filter _)).foldl _ acc
      rw [List.foldl_cons, List.foldl_cons]
      exact ih _
    | arr xs =>
      show (subst subs (JVal.arr xs) :: substList subs t).foldl _ acc
        = (subst subs (JVal.arr xs) :: substList subs (t.filter _)).foldl _ acc
      rw [List.foldl_cons, List.foldl_cons]
      exact ih _
    | elem i =>
      show (subst subs (JVal.elem i) :: substList subs t).foldl _ acc
        = (subst subs (JVal.elem i) :: substList subs (t.filter _)).foldl _ acc
      rw [List.foldl_cons, List.foldl_cons]
      exact ih _
    | func n =>
      show (subst subs (JVal.func n) :: substList subs t).foldl _ acc
        = (subst subs (JVal.func n) :: substList subs (t.filter _)).foldl _ acc
      rw [List.foldl_cons, List.foldl_cons]
      exact ih _

theorem ObjectToElement_fst :
    ∀ (fuel : Nat) (obj : JVal) (subs : List (String × JVal)) (t : Nat)
      (st : Store) (r : Nat) (st' : Store),
      ObjectToElement fuel obj subs (some t) st = some (r, st') → r = t := by
  intro fuel obj subs t st r st' h
  cases fuel with
  | zero => exact absurd h (by simp [ObjectToElement])
  | succ n =>
    cases obj with
    | null =>
      rw [ObjectToElement_null] at h
      exact (Prod.mk.injEq _ _ _ _).mp (Option.some.inj h) |>.1.symm
    | elem j =>
      rw [show ObjectToElement (n + 1) (JVal.elem j) subs (some t) st
            = some (t, appendChild st t (DomNode.elem j)) from rfl] at h
      exact (Prod.mk.injEq _ _ _ _).mp (Option.some.inj h) |>.1.symm
    | str s1 =>
      rw [show ObjectToElement (n + 1) (JVal.str s1) subs (some t) st = none from rfl] at h
      exact absurd h (by simp)
    | func m1 =>
      rw [show ObjectToElement (n + 1) (JVal.func m1) subs (some t) st
            = some (t, st) from rfl] at h
      exact (Prod.mk.injEq _ _ _ _).mp (Option.some.inj h) |>.1.symm
    | arr xs =>
      rw [show ObjectToElement (n + 1) (JVal.arr xs) subs (some t) st
            = ((xs.foldl (fun acc x => acc.bind (fun s =>
                (ObjectToElement n x subs (some t) s).map Prod.snd)) (some st)).map
              (fun s => (t, s))) from rfl] at h
      obtain ⟨s, _, heq⟩ := Option.map_eq_some'.mp h
      exact ((Prod.mk.injEq _ _ _ _).mp heq).1.symm
    | obj fields =>
      unfold ObjectToElement at h
      simp only [] at h
      split at h
      · exact absurd h (by simp)
      · split at h
        · exact absurd h (by simp)
        · obtain ⟨s, _, heq⟩ := Option.map_eq_some'.mp h
          exact ((Prod.mk.injEq _ _ _ _).mp heq).1.symm

/-! ## The claims -/

/-- C1: the spec asserts that an explicit `style` map and an
`attributes.style` entry are merged with the explicit map winning on
conflicts and the non-conflicting attribute-embedded properties
retained.  The materializer violates this whenever `attributes.style` is
given as a style map: lines 144-151 compute the merged `inlineStyle` and
never use it, the attributes loop stringifies the map to
"[object Object]", and `SetStyle` then replaces it with the explicit
properties only.  At the failing input
`attributes.style = (font-size: 12px)`, `style = (color: blue)` the
resulting inline style is exactly "color: blue": `font-size` is lost. -/
theorem c1_attributes_style_map_lost :
    (ObjectToElement 2
        (JVal.obj
          [("attributes", JVal.obj [("style", JVal.obj [("font-size", JVal.str "12px")])]),
           ("style", JVal.obj [("color", JVal.str "blue")])])
        [] (some 0) ⟨[⟨"div", [], [], [], []⟩], []⟩).map (fun r => getAttr r.2 0 "style")
      = some (some "color: blue")
    ∧ StyleRuleToObject "color: blue" = [("color", "blue")] :=
  ⟨by decide, by decide⟩

/-- C2 counterexample: the claim quantifies over every base string and
new style map.  With base `""` and
`n = [(a, one double quote), (b, x)]` the stored string is
`a: ";b: x`, whose re-parse absorbs the second entry into the quoted
value: `b` is a property named in `n` but does not map to `x`. -/
theorem c2_counterexample :
    getKey (StyleRuleToObject (SetStyleCore ""
        [("a", JVal.str "\""), ("b", JVal.str "x")])) "b"
      ≠ some "x" := by decide

/-- C2 (amended): for a base style string with no double quote and a new
style map with distinct, nonempty, trimmed names free of `:`, `;`, `"`
and trimmed values free of `;`, `"`, parsing the string `SetStyle`
stores yields the new value for every property of `n` and the original
parsed value for every property of the base not named in `n`. -/
theorem c2_merge_preserves (base : String) (n : List (String × String))
    (hbase : quoteFree base.data)
    (hn : ∀ p ∈ n, WFentry (p.1.data, p.2.data))
    (hnd : NodupKeys n) :
    (∀ p ∈ n,
      getKey (StyleRuleToObject (SetStyleCore base
          (n.map (fun q => (q.1, JVal.str q.2))))) p.1
        = some p.2)
    ∧ (∀ p ∈ StyleRuleToObject base, p.1 ∉ keysOf n →
      getKey (StyleRuleToObject (SetStyleCore base
          (n.map (fun q => (q.1, JVal.str q.2))))) p.1
        = some p.2) := by
  have hP : WFmap (parseChars base.data) := parseChars_WF hbase
  have hMergedMap : mergedStyleMap base (n.map (fun q => (q.1, JVal.str q.2)))
      = overlay (parseChars base.data) (n.map (fun p => (p.1.data, p.2.data))) := by
    unfold mergedStyleMap
    rw [List.map_map]
    rfl
  have hwfM : WFmap (overlay (parseChars base.data)
      (n.map (fun p => (p.1.data, p.2.data)))) := by
    constructor
    · intro p hp
      rcases mem_overlay hp with hp | hp
      · exact hP.1 p hp
      · obtain ⟨q, hq, he⟩ := List.mem_map.mp hp
        rw [← he]
        exact hn q hq
    · exact NodupKeys_overlay hP.2 _
  have hparse : parseChars ((SetStyleCore base
        (n.map (fun q => (q.1, JVal.str q.2)))).data)
      = overlay (parseChars base.data) (n.map (fun p => (p.1.data, p.2.data))) := by
    rw [SetStyleCore_eq, hMergedMap]
    exact parseChars_setser_eq hwfM
  constructor
  · intro p hp
    unfold StyleRuleToObject
    rw [getKey_mapStr, hparse,
        getKey_overlay_of_mem (NodupKeys_dataPair hnd) (List.mem_map_of_mem _ hp) _]
    rfl
  · intro p hp hnot
    unfold StyleRuleToObject at hp ⊢
    obtain ⟨q, hq, he⟩ := List.mem_map.mp hp
    rw [getKey_mapStr, hparse]
    have hknot : p.1.data ∉ keysOf (n.map (fun p => (p.1.data, p.2.data))) := by
      intro hmem
      exact hnot (mem_keys_data.mp hmem)
    rw [getKey_overlay_of_not_mem hknot]
    have hbv : getKey (parseChars base.data) p.1.data = some q.2 := by
      have hp1 : p.1.data = q.1 := by
        rw [← he]
      rw [hp1]
      exact getKey_eq_some_of_mem hP.2 hq
    rw [hbv, ← he]
    rfl

/-- C2 witness: merging `(color, blue)` into
`"color: red; font-size: 12px;"` overwrites `color` and keeps
`font-size` unchanged. -/
theorem c2_merge_preserves_witness :
    getKey (StyleRuleToObject (SetStyleCore "color: red; font-size: 12px;"
        ([("color", "blue")].map (fun q => (q.1, JVal.str q.2))))) "color"
      = some "blue"
    ∧ getKey (StyleRuleToObject (SetStyleCore "color: red; font-size: 12px;"
        ([("color", "blue")].map (fun q => (q.1, JVal.str q.2))))) "font-size"
      = some "12px" := by
  have h := c2_merge_preserves "color: red; font-size: 12px;" [("color", "blue")]
    (by decide) (by decide) (by decide)
  exact ⟨h.1 ("color", "blue") (by decide),
         h.2 ("font-size", "12px") (by decide) (by decide)⟩

/-- C3 counterexample: at `existing = ""`, `n = (color, blue)` the merged
map is `[(color, blue)]`; `SetStyle` stores "color: blue" while
`ObjectToStyleRule` of the merged map is "color: blue;" — the stored
string is not the `ObjectToStyleRule` serialization. -/
theorem c3_counterexample :
    mergedStyleMap "" [("color", JVal.str "blue")] = [("color".data, "blue".data)]
    ∧ SetStyleCore "" [("color", JVal.str "blue")]
        ≠ ObjectToStyleRule [("color", "blue")] :=
  ⟨by decide, by decide⟩

/-- C3 (amended): the string `SetStyle` stores is exactly the merged map
(parse of the existing style overlaid with the new entries) rendered in
`SetStyle`'s own format — each entry as "name: value" and entries joined
with ";", no trailing semicolon — rather than `ObjectToStyleRule`'s
"name: value;" joined with spaces. -/
theorem c3_setstyle_format (existingStyle : String) (style : List (String × JVal)) :
    SetStyleCore existingStyle style
      = setStyleFormat (mergedStyleMap existingStyle style) :=
  SetStyleCore_eq existingStyle style

/-- C4 counterexample: `StyleRuleToObject "Color: red;"` stores the key
`Color` exactly as written; it is not equal to its own lowercase form. -/
theorem c4_counterexample :
    ¬ ∀ p ∈ StyleRuleToObject "Color: red;", p.1.data.map Char.toLower = p.1.data := by
  decide

/-- C4 (amended): property names are stored whitespace-trimmed exactly as
written (and only nonempty names are stored); they are not lowercased,
so case-insensitively equal names can map to distinct entries. -/
theorem c4_keys_stored_trimmed (s : String) :
    ∀ p ∈ StyleRuleToObject s, (⟨jsTrim p.1.data⟩ : String) = p.1 ∧ p.1 ≠ "" := by
  intro p hp
  unfold StyleRuleToObject at hp
  obtain ⟨q, hq, he⟩ := List.mem_map.mp hp
  obtain ⟨h1, h2⟩ := parseChars_keys s.data q hq
  cases he
  constructor
  · exact congrArg String.mk h1
  · intro hh
    exact h2 (congrArg String.data hh)

/-- C4 witness: the key of `Parse "Color: red;"` is trimmed and
nonempty. -/
theorem c4_keys_stored_trimmed_witness :
    (⟨jsTrim ("Color" : String).data⟩ : String) = "Color"
    ∧ ("Color" : String) ≠ "" :=
  c4_keys_stored_trimmed "Color: red;" ("Color", "red") (by decide)

/-- C5: a `;` inside a double-quoted substring does not split
declarations: parsing `content: "a;b:c"; color: red;` yields exactly the
two entries `content` (with the quoted value kept verbatim, embedded `;`
and `:` included) and `color`. -/
theorem c5_quote_safety :
    StyleRuleToObject "content: \"a;b:c\"; color: red;"
      = [("content", "\"a;b:c\""), ("color", "red")] := by decide

/-- C6 counterexample: the map `[(a, one double quote)]` satisfies the
claim's precondition (distinct names, no `;` or `:` anywhere), yet
serializing and re-parsing it does not give the map back: the quote
absorbs the trailing `;` into the value. -/
theorem c6_counterexample :
    StyleRuleToObject (ObjectToStyleRule [("a", "\"")]) ≠ [("a", "\"")] := by decide

/-- C6 (amended): for a map with distinct, nonempty, trimmed names free
of `:`, `;`, `"` and trimmed values free of `;`, `"`,
`Parse (Serialize M) = M`. -/
theorem c6_roundtrip (M : List (String × String))
    (h : ∀ p ∈ M, WFentry (p.1.data, p.2.data)) (hnd : NodupKeys M) :
    StyleRuleToObject (ObjectToStyleRule M) = M := by
  have hwf : WFmap (M.map (fun p => (p.1.data, p.2.data))) := by
    constructor
    · intro q hq
      obtain ⟨p, hp, he⟩ := List.mem_map.mp hq
      rw [← he]
      exact h p hp
    · exact NodupKeys_dataPair hnd
  unfold StyleRuleToObject ObjectToStyleRule
  rw [show ((⟨objectToStyleRuleChars (M.map (fun p => (p.1.data, p.2.data)))⟩ : String)).data
        = objectToStyleRuleChars (M.map (fun p => (p.1.data, p.2.data))) from rfl]
  rw [parseChars_objser_eq hwf]
  exact strPair_dataPair M

/-- C6 witness: the round trip holds at a concrete two-entry map. -/
theorem c6_roundtrip_witness :
    StyleRuleToObject (ObjectToStyleRule [("color", "blue"), ("font-size", "12px")])
      = [("color", "blue"), ("font-size", "12px")] :=
  c6_roundtrip [("color", "blue"), ("font-size", "12px")] (by decide) (by decide)

/-- C7 counterexample: for `s = a: "` (an unterminated quote),
`Parse s = [(a, ")]` but serializing appends `;` inside the open quote,
so the re-parse yields `[(a, ";)]`: one serialize-reparse cycle is not
idempotent on arbitrary strings. -/
theorem c7_counterexample :
    StyleRuleToObject (ObjectToStyleRule (StyleRuleToObject "a: \""))
      ≠ StyleRuleToObject "a: \"" := by decide

/-- C7 (amended): for every style string containing no double-quote
character, `Parse (Serialize (Parse s)) = Parse s`. -/
theorem c7_reparse_idempotent (s : String) (h : ∀ c ∈ s.data, c ≠ '"') :
    StyleRuleToObject (ObjectToStyleRule (StyleRuleToObject s))
      = StyleRuleToObject s := by
  have hwf : WFmap (parseChars s.data) := parseChars_WF h
  unfold StyleRuleToObject ObjectToStyleRule
  rw [show (((parseChars s.data).map (fun p => ((⟨p.1⟩ : String), (⟨p.2⟩ : String)))).map
        (fun p => (p.1.data, p.2.data))) = parseChars s.data from by
    rw [List.map_map]
    exact map_pair_id (fun a b => rfl) _]
  rw [show ((⟨objectToStyleRuleChars (parseChars s.data)⟩ : String)).data
        = objectToStyleRuleChars (parseChars s.data) from rfl]
  rw [parseChars_objser_eq hwf]

/-- C7 witness: the idempotence instance at a concrete quote-free
string. -/
theorem c7_reparse_idempotent_witness :
    StyleRuleToObject (ObjectToStyleRule (StyleRuleToObject
        "color: red; font-size: 12px"))
      = StyleRuleToObject "color: red; font-size: 12px" :=
  c7_reparse_idempotent "color: red; font-size: 12px" (by decide)

/-- C8 counterexample: a single descendant with parseable z-index 40000
makes the claim's "min equals the minimum of parseable values" false:
the scan never updates the 32000 sentinel (40000 < 32000 fails), so the
reset returns min 0 instead of 40000. -/
theorem c8_counterexample :
    GetZIndexRange [some 40000] = (0, 40000) ∧ ((0 : Int) ≠ 40000) :=
  ⟨by decide, by decide⟩

/-- C8 (amended): with no parseable value the result is (0, 0); when the
parseable values have minimum m, the returned min is m if m < 32000 and
0 otherwise; symmetrically the returned max is the true maximum M if
-32000 < M and 0 otherwise.  The sentinels themselves are never
returned. -/
theorem c8_range_correct (zs : List (Option Int)) :
    (zs.filterMap id = [] → GetZIndexRange zs = (0, 0))
    ∧ (∀ m : Int, (zs.filterMap id).min? = some m →
        ((m < 32000 → (GetZIndexRange zs).1 = m)
          ∧ (32000 ≤ m → (GetZIndexRange zs).1 = 0)))
    ∧ (∀ M : Int, (zs.filterMap id).max? = some M →
        ((-32000 < M → (GetZIndexRange zs).2 = M)
          ∧ (M ≤ -32000 → (GetZIndexRange zs).2 = 0))) := by
  refine ⟨?_, ?_, ?_⟩
  · intro h
    rw [GetZIndexRange_eq, h]
    simp
  · intro m hm
    constructor
    · intro hlt
      rw [GetZIndexRange_eq]
      show (if (zs.filterMap id).foldl min 32000 = 32000 then 0
          else (zs.filterMap id).foldl min 32000) = m
      rw [foldl_min_eq hm, min_eq_right (le_of_lt hlt), if_neg (ne_of_lt hlt)]
    · intro hge
      rw [GetZIndexRange_eq]
      show (if (zs.filterMap id).foldl min 32000 = 32000 then 0
          else (zs.filterMap id).foldl min 32000) = 0
      rw [foldl_min_eq hm, min_eq_left hge]
      simp
  · intro M hM
    constructor
    · intro hlt
      rw [GetZIndexRange_eq]
      show (if (zs.filterMap id).foldl max (-32000) = -32000 then 0
          else (zs.filterMap id).foldl max (-32000)) = M
      rw [foldl_max_eq hM, max_eq_right (le_of_lt hlt), if_neg (ne_of_gt hlt)]
    · intro hge
      rw [GetZIndexRange_eq]
      show (if (zs.filterMap id).foldl max (-32000) = -32000 then 0
          else (zs.filterMap id).foldl max (-32000)) = 0
      rw [foldl_max_eq hM, max_eq_left hge]
      simp

/-- C8 witness: with parseable values 5 and -3 (and one unparseable
descendant) the range is (-3, 5). -/
theorem c8_range_correct_witness :
    (GetZIndexRange [none, some 5, some (-3)]).1 = -3
    ∧ (GetZIndexRange [none, some 5, some (-3)]).2 = 5 := by
  have h := c8_range_correct [none, some 5, some (-3)]
  exact ⟨(h.2.1 (-3) (by decide)).1 (by decide),
         (h.2.2 5 (by decide)).1 (by decide)⟩

/-- C9: materializing a null spec against an existing target is a no-op
returning the target with the store unchanged; and materializing a
`children` list equals materializing the same list with its null entries
removed — non-null entries are processed in their original relative
order and nulls are skipped without error. -/
theorem c9_null_tolerance :
    (∀ (fuel : Nat) (subs : List (String × JVal)) (t : Nat) (st : Store),
      ObjectToElement (fuel + 1) JVal.null subs (some t) st = some (t, st))
    ∧ (∀ (fuel : Nat) (subs : List (String × JVal)) (target : Option Nat)
        (st : Store) (l : List JVal),
      ObjectToElement (fuel + 2) (JVal.obj [("children", JVal.arr l)]) subs target st
        = ObjectToElement (fuel + 2)
            (JVal.obj [("children", JVal.arr (l.filter (fun v => !v.isNull)))])
            subs target st) := by
  constructor
  · intro fuel subs t st
    exact ObjectToElement_null fuel subs t st
  · intro fuel subs target st l
    cases target with
    | some i =>
      show ObjectToElement ((fuel + 1) + 1) (JVal.obj [("children", JVal.arr l)])
            subs (some i) st
          = ObjectToElement ((fuel + 1) + 1)
            (JVal.obj [("children", JVal.arr (l.filter (fun v => !v.isNull)))])
            subs (some i) st
      rw [ObjectToElement_children, ObjectToElement_children,
          foldl_children_filter fuel subs i l (some st)]
    | none =>
      show ObjectToElement ((fuel + 1) + 1) (JVal.obj [("children", JVal.arr l)])
            subs none st
          = ObjectToElement ((fuel + 1) + 1)
            (JVal.obj [("children", JVal.arr (l.filter (fun v => !v.isNull)))])
            subs none st
      rw [ObjectToElement_none_target, ObjectToElement_none_target,
          ObjectToElement_children, ObjectToElement_children,
          foldl_children_filter fuel subs st.elems.length l (some _)]

/-- C10: in every branch the materializer returns exactly the target
node it was given when the target is non-null, and returns the freshly
allocated container node (the store's next handle) when the target is
null. -/
theorem c10_returns_target :
    (∀ (fuel : Nat) (obj : JVal) (subs : List (String × JVal)) (t : Nat)
        (st : Store) (r : Nat) (st' : Store),
      ObjectToElement fuel obj subs (some t) st = some (r, st') → r = t)
    ∧ (∀ (fuel : Nat) (obj : JVal) (subs : List (String × JVal))
        (st : Store) (r : Nat) (st' : Store),
      ObjectToElement fuel obj subs none st = some (r, st') → r = st.elems.length) := by
  constructor
  · exact ObjectToElement_fst
  · intro fuel obj subs st r st' h
    cases fuel with
    | zero => exact absurd h (by simp [ObjectToElement])
    | succ n =>
      rw [ObjectToElement_none_target] at h
      exact ObjectToElement_fst (n + 1) obj subs st.elems.length _ r st' h

/-- C10 witness: concrete runs with a given target (returns handle 0,
the target) and without one (returns handle 1, the fresh container). -/
theorem c10_returns_target_witness : (0 : Nat) = 0 ∧ (1 : Nat) = 1 := by
  constructor
  · exact c10_returns_target.1 1 JVal.null [] 0 ⟨[⟨"div", [], [], [], []⟩], []⟩ 0
      ⟨[⟨"div", [], [], [], []⟩], []⟩ rfl
  · exact c10_returns_target.2 1 JVal.null [] ⟨[⟨"div", [], [], [], []⟩], []⟩ 1
      ⟨[⟨"div", [], [], [], []⟩, ⟨"div", [], [], [], []⟩], []⟩ rfl

end HTMLMjs
